import Mathlib

/-!
Shallow embedding of the `rewrite` package of the govendor repository
(`src/rewrite/command.go`).

Pure data and logic (statuses, list items, the sort comparator, the
local-import-path computation, `path.Join`/`path.Clean`, `strings.Split`) are
translated directly from the source.  The collaborators that are not part
of the provided source (`NewContextWD`, `Context.LoadPackage`,
`writeVendorFile`, `CopyPackage`, `RewriteFiles`) are modelled from the
specification as oracles supplied in an environment record, and the
observable filesystem effects (manifest writes, directory creation, copies,
rewrites) are threaded through an explicit `World` state.
-/

/-- `ListStatus` is a Go `byte` (`type ListStatus byte`). -/
abbrev ListStatus : Type := Fin 256

def StatusUnknown : ListStatus := 0

def StatusMissing : ListStatus := 1

def StatusStd : ListStatus := 2

def StatusLocal : ListStatus := 3

def StatusExternal : ListStatus := 4

def StatusInternal : ListStatus := 5

def StatusUnused : ListStatus := 6

/-- The `String` method on `ListStatus`: the `switch` over the seven
defined constants, with `""` for every other byte value. -/
def ListStatus.string (ls : ListStatus) : String :=
  if ls = StatusUnknown then "?"
  else if ls = StatusMissing then "m"
  else if ls = StatusStd then "s"
  else if ls = StatusLocal then "l"
  else if ls = StatusExternal then "e"
  else if ls = StatusInternal then "i"
  else if ls = StatusUnused then "u"
  else ""

structure ListItem where
  Status : ListStatus
  Path : String
deriving DecidableEq

instance : Inhabited ListItem := ⟨⟨0, ""⟩⟩

/-- The `String` method on `ListItem`: `li.Status.String() + " " + li.Path`. -/
def ListItem.string (li : ListItem) : String :=
  ListStatus.string li.Status ++ " " ++ li.Path

/-- Go `strings.Compare(a, b) < 0`: lexicographic strict comparison of the
character sequences of the two strings. -/
def strCmpLt : List Char → List Char → Bool
  | [], [] => false
  | [], _ :: _ => true
  | _ :: _, [] => false
  | x :: xs, y :: ys => if x = y then strCmpLt xs ys else decide (x < y)

/-- The body of `ListItemSort.Less` applied to the two elements it indexes:
equal statuses compare paths ascending, otherwise higher status first. -/
def listItemLess (a b : ListItem) : Bool :=
  if a.Status = b.Status then strCmpLt a.Path.data b.Path.data
  else decide (b.Status < a.Status)

/-- `type ListItemSort []ListItem`. -/
abbrev ListItemSort : Type := List ListItem

/-- `ListItemSort.Less(i, j)` from the source, reading the two indexed
elements of the slice. -/
def ListItemSort.Less (li : ListItemSort) (i j : Nat) : Bool :=
  listItemLess (li.getD i default) (li.getD j default)

/-- The non-strict order induced by `ListItemSort.Less`; `sort.Sort`
guarantees its result is pairwise ordered by this relation. -/
def listItemLE (a b : ListItem) : Bool :=
  !(listItemLess b a)

/-- `sort.Sort(ListItemSort(li))`: a permutation of the input that is
pairwise ordered by `listItemLE`. -/
def sortItems (li : List ListItem) : List ListItem :=
  li.mergeSort listItemLE

/-- Checks that the first list is a prefix of the second. -/
def hasPfx : List Char → List Char → Bool
  | [], _ => true
  | _ :: _, [] => false
  | a :: as, b :: bs => a = b && hasPfx as bs

/-- Leftmost occurrence search used by Go `strings.Split`: returns the part
before the first occurrence of `sep` and the part after it, or `none` when
`sep` does not occur. -/
def findCut (sep : List Char) : List Char → Option (List Char × List Char)
  | [] => if hasPfx sep [] then some ([], []) else none
  | c :: rest =>
    if hasPfx sep (c :: rest) then some ([], (c :: rest).drop sep.length)
    else
      match findCut sep rest with
      | none => none
      | some (pre, post) => some (c :: pre, post)

/-- Fuelled worker for Go `strings.Split` with a non-empty separator:
repeatedly cut at the leftmost occurrence. -/
def splitGoAux (sep : List Char) : Nat → List Char → List (List Char)
  | 0, s => [s]
  | fuel + 1, s =>
    match findCut sep s with
    | none => [s]
    | some (pre, post) => pre :: splitGoAux sep fuel post

/-- Go `strings.Split(s, sep)` for a non-empty separator. -/
def stringsSplit (s sep : String) : List String :=
  (splitGoAux sep.data s.data.length s.data).map String.mk

/-- Segment processing of Go `path.Clean`: drop empty and `.` segments,
resolve `..` against the accumulated output (kept reversed in `acc`). -/
def cleanSegs (rooted : Bool) : List String → List String → List String
  | acc, [] => acc.reverse
  | acc, s :: rest =>
    if s = "" || s = "." then cleanSegs rooted acc rest
    else if s = ".." then
      match acc with
      | [] => if rooted then cleanSegs rooted [] rest else cleanSegs rooted [".."] rest
      | a :: tl => if a = ".." then cleanSegs rooted (s :: a :: tl) rest else cleanSegs rooted tl rest
    else cleanSegs rooted (s :: acc) rest

/-- Go `path.Clean`. -/
def pathClean (p : String) : String :=
  if p = "" then "."
  else
    let rooted := p.data.head? = some '/'
    let segs := cleanSegs rooted [] ((splitGoAux ['/'] p.data.length p.data).map String.mk)
    let core := String.intercalate "/" segs
    if rooted then "/" ++ core
    else if core = "" then "." else core

/-- Go `path.Join`: drop leading empty elements, join the rest with `/`,
then clean. -/
def pathJoin (elems : List String) : String :=
  match elems.dropWhile (fun e => e = "") with
  | [] => ""
  | es => pathClean (String.intercalate "/" es)

/-- Go `filepath.Join` on this platform: the separator is `/`, so it agrees
with `path.Join`. -/
def filepathJoin (elems : List String) : String :=
  pathJoin elems

/-- Modelled from the spec: `slashToImportPath` (not under `src/`) converts
filesystem separators to import-path slashes; with the separator `/` it is
the identity. -/
def slashToImportPath (s : String) : String := s

/-- Modelled from the spec: `slashToFilepath` (not under `src/`) converts
slashes of an import path to filesystem separators; with the separator `/`
it is the identity. -/
def slashToFilepath (s : String) : String := s

def vendorFilename : String := "vendor.json"

def internalFolder : String := "internal"

def toolName : String := "github.com/kardianos/vendor"

/-- `filepath.Join(internalFolder, vendorFilename)`. -/
def internalVendor : String := filepathJoin [internalFolder, vendorFilename]

/-- `string(filepath.Separator) + internalFolder + string(filepath.Separator)`. -/
def internalFolderSlash : String := "/" ++ internalFolder ++ "/"

/-- Modelled from the spec: one entry of the vendor manifest
(`VendorPackageEntry`); the declaring file is not under `src/`.  `CmdAdd`
fills only `Vendor` and `Local` (version tracking is a TODO in the source). -/
structure VendorPackage where
  Vendor : String
  Local : String
  Version : Option String := none
  VersionTime : Option String := none
deriving DecidableEq

/-- Modelled from the spec: the vendor manifest (`VendorFile`), with the
tool identity and the ordered package entries. -/
structure VendorFile where
  Tool : String
  Package : List VendorPackage := []
deriving DecidableEq

/-- Modelled from the spec: one discovered package of the loaded context;
the declaring file is not under `src/`.  Only the fields `CmdAdd` and
`CmdList` read are modelled. -/
structure Package where
  ImportPath : String
  Dir : String
  Status : ListStatus
deriving DecidableEq

/-- Modelled from the spec: the loaded `Context` (not under `src/`): project
roots, the package map keyed by import path, the loaded vendor file and the
reverse index from import paths to referencing files. -/
structure Context where
  RootDir : String
  RootGopath : String
  RootImportPath : String
  Package : List (String × Package)
  VendorFile : VendorFile
  fileImports : List (String × List String)
deriving DecidableEq

inductive GoErr where
  | vendorFileExists
  | missingVendorFile
  | missingGOROOT
  | missingGOPATH
  | vendorExists
  | localPackage
  | notInGOPATH (missing : String)
  | ioErr (msg : String)
  | nilDeref
deriving DecidableEq

/-- Observable filesystem state threaded through the commands: manifest
files on disk keyed by path, created directories, performed package copies
and performed rewrite batches. -/
structure World where
  manifests : List (String × VendorFile)
  dirs : List String
  copies : List (String × String)
  rewrites : List (List String × List (String × String))
deriving DecidableEq

/-- Store a manifest at a path, replacing an existing entry. -/
def setManifest : List (String × VendorFile) → String → VendorFile → List (String × VendorFile)
  | [], k, v => [(k, v)]
  | (k', v') :: rest, k, v =>
    if k' = k then (k, v) :: rest else (k', v') :: setManifest rest k v

/-- Modelled from the spec: `writeVendorFile(root, vf)` (not under `src/`)
atomically persists `vf` as `root/internal/vendor.json`. -/
def writeVendorFileAct (root : String) (vf : VendorFile) (w : World) : World :=
  { w with manifests := setManifest w.manifests (filepathJoin [root, internalVendor]) vf }

instance {ε α : Type} [DecidableEq ε] [DecidableEq α] : DecidableEq (Except ε α) := fun a b =>
  match a, b with
  | .error e, .error f =>
    if h : e = f then isTrue (by rw [h]) else isFalse (fun hh => h (Except.error.inj hh))
  | .error _, .ok _ => isFalse (fun hh => Except.noConfusion hh)
  | .ok _, .error _ => isFalse (fun hh => Except.noConfusion hh)
  | .ok x, .ok y =>
    if h : x = y then isTrue (by rw [h]) else isFalse (fun hh => h (Except.ok.inj hh))

/-- Oracle outcomes for the collaborators of the commands that are not part
of the provided source: the context constructor, the two package loads, and
the fallible write/copy/rewrite steps (whose failures are I/O errors). -/
structure Env where
  newContextWD : Except String Context
  load1 : Except String Context
  writeErr : Option String
  copyErr : Option String
  load2 : Except String Context
  rewriteErr : Option String
deriving DecidableEq

/-- Oracle outcomes for `CmdInit`: the working directory lookup and the
fallible `MkdirAll` and manifest write. -/
structure InitEnv where
  wd : Except String String
  mkdirErr : Option String
  writeErr : Option String
deriving DecidableEq

/-- `CmdInit`: fail when `internal/vendor.json` already exists under the
working directory, otherwise create the `internal` directory and write an
empty manifest carrying the tool name. -/
def cmdInit (env : InitEnv) (w : World) : Except GoErr Unit × World :=
  match env.wd with
  | .error e => (.error (.ioErr e), w)
  | .ok wd =>
    if (w.manifests.lookup (filepathJoin [wd, internalVendor])).isSome then
      (.error .vendorFileExists, w)
    else
      match env.mkdirErr with
      | some e => (.error (.ioErr e), w)
      | none =>
        let w1 := { w with dirs := w.dirs ++ [filepathJoin [wd, internalFolder]] }
        match env.writeErr with
        | some e => (.error (.ioErr e), w1)
        | none => (.ok (), writeVendorFileAct wd { Tool := toolName } w1)

/-- `CmdList`: build the context, load the packages, project every package
to a `ListItem` and sort by status then path. -/
def cmdList (env : Env) : Except GoErr (List ListItem) :=
  match env.newContextWD with
  | .error e => .error (.ioErr e)
  | .ok _ =>
    match env.load1 with
    | .error e => .error (.ioErr e)
    | .ok ctx =>
      .ok (sortItems (ctx.Package.map fun kv => ⟨kv.2.Status, kv.2.ImportPath⟩))

/-- The local import path computed by `CmdAdd` (lines 193–195 of the
source): split on `/internal/`, keep the last field, and re-root it under
the project's import path plus `internal`. -/
def localImportPathOf (rootImportPath importPath : String) : String :=
  pathJoin [rootImportPath, internalFolder,
    (stringsSplit importPath internalFolderSlash).getLastD ""]

/-- The tail of `CmdAdd` after the manifest has been persisted: copy the
package, reload the context, rewrite the referencing files.  None of these
steps touches the persisted manifest. -/
def cmdAddTail (env : Env) (pkg : Package) (ctx : Context)
    (importPath localImportPath : String) (w : World) :
    Except GoErr Unit × World :=
  match env.copyErr with
  | some e => (.error (.ioErr e), w)
  | none =>
    let w1 := { w with copies := w.copies ++
      [(pkg.Dir, filepathJoin [ctx.RootGopath, slashToFilepath localImportPath])] }
    match env.load2 with
    | .error e => (.error (.ioErr e), w1)
    | .ok ctx2 =>
      let files := (ctx2.fileImports.lookup importPath).getD []
      match env.rewriteErr with
      | some e => (.error (.ioErr e), w1)
      | none =>
        (.ok (), { w1 with rewrites := w1.rewrites ++ [(files, [(importPath, localImportPath)])] })

/-- `CmdAdd`: load the context focused on the import path, require status
`External` (with status-specific errors otherwise), compute the local import
path, append and persist the manifest entry, then copy, reload and rewrite.
A missing package-map entry models the unguarded dereference in the source
as the distinguished `nilDeref` outcome. -/
def cmdAdd (env : Env) (importPath0 : String) (w : World) : Except GoErr Unit × World :=
  let importPath := slashToImportPath importPath0
  match env.newContextWD with
  | .error e => (.error (.ioErr e), w)
  | .ok _ =>
    match env.load1 with
    | .error e => (.error (.ioErr e), w)
    | .ok ctx =>
      match ctx.Package.lookup importPath with
      | none => (.error .nilDeref, w)
      | some pkg =>
        if pkg.Status = StatusExternal then
          let localImportPath := localImportPathOf ctx.RootImportPath importPath
          let vf2 := { ctx.VendorFile with
            Package := ctx.VendorFile.Package ++
              [{ Vendor := importPath, Local := localImportPath }] }
          match env.writeErr with
          | some e => (.error (.ioErr e), w)
          | none =>
            cmdAddTail env pkg ctx importPath localImportPath
              (writeVendorFileAct ctx.RootDir vf2 w)
        else if pkg.Status = StatusInternal then (.error .vendorExists, w)
        else if pkg.Status = StatusLocal then (.error .localPackage, w)
        else (.error (.notInGOPATH importPath), w)

/-- `CmdUpdate`: the source is `return nil`; no effect, no error. -/
def cmdUpdate (importPath : String) (w : World) : Except GoErr Unit × World :=
  (.ok (), w)

/-- `CmdRemove`: the source is `return nil`; no effect, no error. -/
def cmdRemove (importPath : String) (w : World) : Except GoErr Unit × World :=
  (.ok (), w)

/-- The string `s` contains an occurrence of the segment `sep`. -/
def containsSeg (sep s : String) : Prop :=
  ∃ a b : String, s = a ++ sep ++ b

/-! ### Concrete fixtures used by witnesses and counterexamples -/

/-- An empty filesystem state. -/
def w0 : World := { manifests := [], dirs := [], copies := [], rewrites := [] }

/-- A package for `example.com/foo` resolved as `External`. -/
def pkgFoo : Package :=
  { ImportPath := "example.com/foo", Dir := "/go/src/example.com/foo", Status := StatusExternal }

/-- A loaded context for a project `proj` importing `example.com/foo`. -/
def ctxExt : Context :=
  { RootDir := "/go/src/proj", RootGopath := "/go/src", RootImportPath := "proj",
    Package := [("example.com/foo", pkgFoo)],
    VendorFile := { Tool := toolName },
    fileImports := [("example.com/foo", ["/go/src/proj/main.go"])] }

/-- Oracles for a fully successful `CmdAdd` run over `ctxExt`. -/
def envAddOk : Env :=
  { newContextWD := .ok ctxExt, load1 := .ok ctxExt, writeErr := none,
    copyErr := none, load2 := .ok ctxExt, rewriteErr := none }

/-- Same oracles, but the package copy fails. -/
def envCopyFail : Env := { envAddOk with copyErr := some "copy failed" }

/-- The context with `example.com/foo` already vendored (`Internal`). -/
def ctxInternal : Context :=
  { ctxExt with Package := [("example.com/foo", { pkgFoo with Status := StatusInternal })] }

/-- Oracles loading `ctxInternal`. -/
def envInternal : Env :=
  { envAddOk with newContextWD := .ok ctxInternal, load1 := .ok ctxInternal }

/-- A loaded context whose package map has no entry at all. -/
def ctxEmptyPkgs : Context := { ctxExt with Package := [] }

/-- Oracles whose load installs no entry for the focus path. -/
def envNoEntry : Env := { envAddOk with load1 := .ok ctxEmptyPkgs }

/-- Oracles for a successful `CmdInit` in working directory `/w`. -/
def initEnvOk : InitEnv := { wd := .ok "/w", mkdirErr := none, writeErr := none }

/-- A context with two packages, for exercising the `CmdList` sort. -/
def ctxList : Context :=
  { ctxExt with Package :=
    [("b.com/x", { ImportPath := "b.com/x", Dir := "/go/src/b.com/x", Status := StatusStd }),
     ("a.com/y", { ImportPath := "a.com/y", Dir := "/go/src/a.com/y", Status := StatusExternal })] }

/-- Oracles loading `ctxList`. -/
def envList : Env :=
  { envAddOk with newContextWD := .ok ctxList, load1 := .ok ctxList }

/-! ### Order properties of the string comparison -/

theorem strCmpLt_irrefl (a : List Char) : strCmpLt a a = false := by
  induction a with
  | nil => rfl
  | cons x xs ih => simp [strCmpLt, ih]

theorem strCmpLt_trans : ∀ {a b c : List Char},
    strCmpLt a b = true → strCmpLt b c = true → strCmpLt a c = true := by
  intro a
  induction a with
  | nil =>
    intro b c hab hbc
    cases b with
    | nil => cases hab
    | cons y ys =>
      cases c with
      | nil => cases hbc
      | cons z zs => rfl
  | cons x xs ih =>
    intro b c hab hbc
    cases b with
    | nil => cases hab
    | cons y ys =>
      cases c with
      | nil => cases hbc
      | cons z zs =>
        simp only [strCmpLt] at hab hbc ⊢
        by_cases hxy : x = y
        · subst hxy
          simp only [if_pos rfl] at hab
          by_cases hxz : x = z
          · subst hxz
            simp only [if_pos rfl] at hbc ⊢
            exact ih hab hbc
          · simp only [if_neg hxz] at hbc ⊢
            exact hbc
        · simp only [if_neg hxy] at hab
          have hxy' : x < y := of_decide_eq_true hab
          by_cases hyz : y = z
          · have hxz : x ≠ z := fun h => hxy (h.trans hyz.symm)
            simp only [if_neg hxz]
            exact decide_eq_true (hyz ▸ hxy')
          · simp only [if_neg hyz] at hbc
            have hyz' : y < z := of_decide_eq_true hbc
            have hxz' : x < z := lt_trans hxy' hyz'
            have hxz : x ≠ z := ne_of_lt hxz'
            simp only [if_neg hxz]
            exact decide_eq_true hxz'

theorem strCmpLt_connex : ∀ {a b : List Char}, a ≠ b →
    strCmpLt a b = true ∨ strCmpLt b a = true := by
  intro a
  induction a with
  | nil =>
    intro b hne
    cases b with
    | nil => exact absurd rfl hne
    | cons y ys => exact Or.inl rfl
  | cons x xs ih =>
    intro b hne
    cases b with
    | nil => exact Or.inr rfl
    | cons y ys =>
      simp only [strCmpLt]
      by_cases hxy : x = y
      · subst hxy
        have hts : xs ≠ ys := by
          intro h
          exact hne (by rw [h])
        simp only [if_pos rfl]
        exact ih hts
      · rcases lt_or_gt_of_ne hxy with h | h
        · exact Or.inl (by simp [if_neg hxy, h])
        · have hyx : y ≠ x := fun hh => hxy hh.symm
          exact Or.inr (by simp [if_neg hyx, h])

theorem strCmpLt_asymm {a b : List Char} (h : strCmpLt a b = true) :
    strCmpLt b a = false := by
  by_contra hba
  have hba' : strCmpLt b a = true := by
    cases hh : strCmpLt b a with
    | false => exact absurd hh hba
    | true => rfl
  have : strCmpLt a a = true := strCmpLt_trans h hba'
  rw [strCmpLt_irrefl] at this
  cases this

theorem strCmpLt_antisymm {a b : List Char}
    (hab : strCmpLt a b = false) (hba : strCmpLt b a = false) : a = b := by
  by_contra hne
  rcases strCmpLt_connex hne with h | h
  · rw [hab] at h; cases h
  · rw [hba] at h; cases h

/-! ### Order properties of the list-item comparator -/

theorem strData_ext {s t : String} (h : s.data = t.data) : s = t := by
  cases s
  cases t
  exact congrArg String.mk h

theorem listItem_ext {a b : ListItem} (h1 : a.Status = b.Status)
    (h2 : a.Path = b.Path) : a = b := by
  cases a
  cases b
  simp only at h1 h2
  simp [h1, h2]

theorem listItemLess_iff (a b : ListItem) :
    listItemLess a b = true ↔
      (b.Status < a.Status ∨ (a.Status = b.Status ∧ strCmpLt a.Path.data b.Path.data = true)) := by
  unfold listItemLess
  by_cases h : a.Status = b.Status
  · rw [if_pos h]
    constructor
    · intro hlt
      exact Or.inr ⟨h, hlt⟩
    · rintro (hlt | ⟨-, hlt⟩)
      · rw [h] at hlt
        exact absurd hlt (lt_irrefl _)
      · exact hlt
  · rw [if_neg h, decide_eq_true_eq]
    constructor
    · intro hlt
      exact Or.inl hlt
    · rintro (hlt | ⟨heq, -⟩)
      · exact hlt
      · exact absurd heq h

theorem listItemLess_asymm {a b : ListItem} (h : listItemLess a b = true) :
    listItemLess b a = false := by
  cases hh : listItemLess b a with
  | false => rfl
  | true =>
    rcases (listItemLess_iff a b).mp h with h1 | ⟨h1, h2⟩
    · rcases (listItemLess_iff b a).mp hh with h3 | ⟨h3, -⟩
      · exact absurd h3 (lt_asymm h1)
      · rw [h3] at h1
        exact absurd h1 (lt_irrefl _)
    · rcases (listItemLess_iff b a).mp hh with h3 | ⟨-, h4⟩
      · rw [h1] at h3
        exact absurd h3 (lt_irrefl _)
      · rw [strCmpLt_asymm h2] at h4
        cases h4

theorem listItemLess_connex {a b : ListItem} (h : a ≠ b) :
    listItemLess a b = true ∨ listItemLess b a = true := by
  by_cases hs : a.Status = b.Status
  · by_cases hp : a.Path = b.Path
    · exact absurd (listItem_ext hs hp) h
    · have hpd : a.Path.data ≠ b.Path.data := fun hh => hp (strData_ext hh)
      rcases strCmpLt_connex hpd with hlt | hlt
      · exact Or.inl ((listItemLess_iff a b).mpr (Or.inr ⟨hs, hlt⟩))
      · exact Or.inr ((listItemLess_iff b a).mpr (Or.inr ⟨hs.symm, hlt⟩))
  · rcases lt_or_gt_of_ne (fun hh : a.Status = b.Status => hs hh) with hlt | hlt
    · exact Or.inr ((listItemLess_iff b a).mpr (Or.inl hlt))
    · exact Or.inl ((listItemLess_iff a b).mpr (Or.inl hlt))

theorem strCmpLe_trans {a b c : List Char} (hab : strCmpLt b a = false)
    (hbc : strCmpLt c b = false) : strCmpLt c a = false := by
  by_cases hba : a = b
  · rw [hba]
    exact hbc
  · by_cases hcb : b = c
    · rw [← hcb]
      exact hab
    · have h1 : strCmpLt a b = true := by
        rcases strCmpLt_connex hba with h | h
        · exact h
        · rw [hab] at h
          cases h
      have h2 : strCmpLt b c = true := by
        rcases strCmpLt_connex hcb with h | h
        · exact h
        · rw [hbc] at h
          cases h
      exact strCmpLt_asymm (strCmpLt_trans h1 h2)

theorem listItemLE_iff (a b : ListItem) :
    listItemLE a b = true ↔
      (b.Status < a.Status ∨ (a.Status = b.Status ∧ strCmpLt b.Path.data a.Path.data = false)) := by
  unfold listItemLE
  rw [Bool.not_eq_true']
  constructor
  · intro h
    rcases lt_trichotomy a.Status b.Status with hlt | heq | hgt
    · exfalso
      have : listItemLess b a = true := (listItemLess_iff b a).mpr (Or.inl hlt)
      rw [h] at this
      cases this
    · refine Or.inr ⟨heq, ?_⟩
      cases hp : strCmpLt b.Path.data a.Path.data with
      | false => rfl
      | true =>
        have : listItemLess b a = true := (listItemLess_iff b a).mpr (Or.inr ⟨heq.symm, hp⟩)
        rw [h] at this
        cases this
    · exact Or.inl hgt
  · rintro (hgt | ⟨heq, hp⟩)
    · cases hh : listItemLess b a with
      | false => rfl
      | true =>
        rcases (listItemLess_iff b a).mp hh with h1 | ⟨h1, -⟩
        · exact absurd h1 (lt_asymm hgt)
        · rw [h1] at hgt
          exact absurd hgt (lt_irrefl _)
    · cases hh : listItemLess b a with
      | false => rfl
      | true =>
        rcases (listItemLess_iff b a).mp hh with h1 | ⟨-, h2⟩
        · rw [heq] at h1
          exact absurd h1 (lt_irrefl _)
        · rw [hp] at h2
          cases h2

theorem listItemLE_trans {a b c : ListItem} (hab : listItemLE a b = true)
    (hbc : listItemLE b c = true) : listItemLE a c = true := by
  rcases (listItemLE_iff a b).mp hab with h1 | ⟨h1, h2⟩
  · rcases (listItemLE_iff b c).mp hbc with h3 | ⟨h3, -⟩
    · exact (listItemLE_iff a c).mpr (Or.inl (lt_trans h3 h1))
    · exact (listItemLE_iff a c).mpr (Or.inl (h3 ▸ h1))
  · rcases (listItemLE_iff b c).mp hbc with h3 | ⟨h3, h4⟩
    · exact (listItemLE_iff a c).mpr (Or.inl (by rw [h1]; exact h3))
    · exact (listItemLE_iff a c).mpr (Or.inr ⟨h1.trans h3, strCmpLe_trans h2 h4⟩)

theorem listItemLE_total (a b : ListItem) :
    (listItemLE a b || listItemLE b a) = true := by
  cases hh : listItemLess b a with
  | false =>
    have : listItemLE a b = true := by
      unfold listItemLE
      rw [hh]
      rfl
    rw [this]
    rfl
  | true =>
    have : listItemLE b a = true := by
      unfold listItemLE
      rw [listItemLess_asymm hh]
      rfl
    rw [this]
    simp

theorem listItemLE_antisymm {a b : ListItem} (hab : listItemLE a b = true)
    (hba : listItemLE b a = true) : a = b := by
  rcases (listItemLE_iff a b).mp hab with h1 | ⟨h1, h2⟩
  · rcases (listItemLE_iff b a).mp hba with h3 | ⟨h3, -⟩
    · exact absurd h3 (lt_asymm h1)
    · rw [h3] at h1
      exact absurd h1 (lt_irrefl _)
  · rcases (listItemLE_iff b a).mp hba with h3 | ⟨-, h4⟩
    · rw [h1] at h3
      exact absurd h3 (lt_irrefl _)
    · exact listItem_ext h1 (strData_ext (strCmpLt_antisymm h4 h2))

theorem sortItems_sorted (l : List ListItem) :
    (sortItems l).Pairwise (fun a b => listItemLE a b = true) :=
  @List.sorted_mergeSort ListItem listItemLE
    (fun _ _ _ hab hbc => listItemLE_trans hab hbc)
    (fun a b => listItemLE_total a b) l

theorem sortItems_perm (l : List ListItem) : (sortItems l).Perm l :=
  List.mergeSort_perm l listItemLE

/-! ### Correctness of the split on the separator -/

theorem hasPfx_iff : ∀ (p l : List Char), hasPfx p l = true ↔ ∃ t, l = p ++ t := by
  intro p
  induction p with
  | nil =>
    intro l
    simp [hasPfx]
  | cons a as ih =>
    intro l
    cases l with
    | nil =>
      simp [hasPfx]
    | cons b bs =>
      simp only [hasPfx, Bool.and_eq_true, decide_eq_true_eq, ih, List.cons_append]
      constructor
      · rintro ⟨rfl, t, rfl⟩
        exact ⟨t, rfl⟩
      · rintro ⟨t, ht⟩
        injection ht with h1 h2
        exact ⟨h1.symm, t, h2⟩

theorem findCut_eq {sep : List Char} : ∀ {s pre post : List Char},
    findCut sep s = some (pre, post) → s = pre ++ sep ++ post := by
  intro s
  induction s with
  | nil =>
    intro pre post h
    rw [findCut] at h
    split at h
    case isTrue hp =>
      simp only [Option.some.injEq, Prod.mk.injEq] at h
      obtain ⟨h1, h2⟩ := h
      subst h1
      subst h2
      rcases (hasPfx_iff sep []).mp hp with ⟨t, ht⟩
      rcases (List.append_eq_nil).mp ht.symm with ⟨hsep, -⟩
      simp [hsep]
    case isFalse => cases h
  | cons c rest ih =>
    intro pre post h
    rw [findCut] at h
    split at h
    case isTrue hp =>
      simp only [Option.some.injEq, Prod.mk.injEq] at h
      obtain ⟨h1, h2⟩ := h
      subst h1
      subst h2
      rcases (hasPfx_iff sep (c :: rest)).mp hp with ⟨t, ht⟩
      rw [ht, List.drop_left]
      simp
    case isFalse hp =>
      cases hfc : findCut sep rest with
      | none =>
        rw [hfc] at h
        cases h
      | some pr =>
        obtain ⟨pre', post'⟩ := pr
        rw [hfc] at h
        simp only [Option.some.injEq, Prod.mk.injEq] at h
        obtain ⟨h1, h2⟩ := h
        subst h2
        rw [← h1]
        have hr := ih hfc
        rw [hr]
        simp

theorem findCut_none {sep : List Char} : ∀ {s : List Char}, findCut sep s = none →
    ¬ ∃ a b, s = a ++ sep ++ b := by
  intro s
  induction s with
  | nil =>
    intro h
    rintro ⟨a, b, hab⟩
    rcases (List.append_eq_nil).mp hab.symm with ⟨h1, h2⟩
    rcases (List.append_eq_nil).mp h1 with ⟨-, hsep⟩
    rw [hsep] at h
    simp [findCut, hasPfx] at h
  | cons c rest ih =>
    intro h
    rw [findCut] at h
    split at h
    case isTrue => cases h
    case isFalse hp =>
      rintro ⟨a, b, hab⟩
      cases a with
      | nil =>
        apply hp
        exact (hasPfx_iff sep (c :: rest)).mpr ⟨b, by simpa using hab⟩
      | cons x xs =>
        simp only [List.cons_append, List.append_assoc] at hab
        injection hab with h1 h2
        cases hfc : findCut sep rest with
        | none =>
          exact ih hfc ⟨xs, b, by simp [h2, List.append_assoc]⟩
        | some pr =>
          obtain ⟨pre', post'⟩ := pr
          rw [hfc] at h
          cases h

theorem findCut_post_lt {sep : List Char} (hsep : sep ≠ []) {s pre post : List Char}
    (h : findCut sep s = some (pre, post)) : post.length < s.length := by
  have hs := findCut_eq h
  have hl : 0 < sep.length := List.length_pos.mpr hsep
  have hlen : s.length = pre.length + sep.length + post.length := by
    rw [hs]
    simp only [List.length_append]
  omega

theorem splitGoAux_of_none {sep s : List Char} (h : findCut sep s = none) :
    ∀ fuel, splitGoAux sep fuel s = [s] := by
  intro fuel
  cases fuel with
  | zero => rfl
  | succ n => simp [splitGoAux, h]

theorem splitGo_decomp {sep : List Char} (hsep : sep ≠ []) :
    ∀ (fuel : Nat) (s : List Char), s.length ≤ fuel →
      ∃ pre lst, splitGoAux sep fuel s = pre ++ [lst] ∧
        findCut sep lst = none ∧
        ((pre = [] ∧ lst = s) ∨ ∃ a, s = a ++ sep ++ lst) := by
  intro fuel
  induction fuel with
  | zero =>
    intro s hlen
    have hs : s = [] := List.eq_nil_of_length_eq_zero (Nat.le_zero.mp hlen)
    refine ⟨[], s, rfl, ?_, Or.inl ⟨rfl, rfl⟩⟩
    rw [hs]
    cases sep with
    | nil => exact absurd rfl hsep
    | cons x xs => rfl
  | succ n ih =>
    intro s hlen
    cases hfc : findCut sep s with
    | none =>
      refine ⟨[], s, ?_, hfc, Or.inl ⟨rfl, rfl⟩⟩
      simp [splitGoAux, hfc]
    | some pr =>
      obtain ⟨pre0, post⟩ := pr
      have hlt : post.length < s.length := findCut_post_lt hsep hfc
      have hle : post.length ≤ n := by omega
      obtain ⟨pre', lst', h1, h2, h3⟩ := ih post hle
      refine ⟨pre0 :: pre', lst', ?_, h2, ?_⟩
      · simp [splitGoAux, hfc, h1]
      · have hs := findCut_eq hfc
        rcases h3 with ⟨-, hl⟩ | ⟨a, ha⟩
        · exact Or.inr ⟨pre0, by rw [hs, hl]⟩
        · refine Or.inr ⟨pre0 ++ sep ++ a, ?_⟩
          rw [hs, ha]
          simp [List.append_assoc]

/-! ### Helper lemmas about the commands -/

theorem containsSeg_iff {sep s : String} :
    containsSeg sep s ↔ ∃ a b : List Char, s.data = a ++ sep.data ++ b := by
  constructor
  · rintro ⟨a, b, rfl⟩
    refine ⟨a.data, b.data, ?_⟩
    simp [String.data_append]
  · rintro ⟨a, b, h⟩
    refine ⟨String.mk a, String.mk b, ?_⟩
    apply strData_ext
    simp only [String.data_append]
    exact h

theorem strMk_data (s : String) : String.mk s.data = s :=
  strData_ext rfl

theorem setManifest_lookup : ∀ (m : List (String × VendorFile)) (k : String) (v : VendorFile),
    (setManifest m k v).lookup k = some v := by
  intro m k v
  induction m with
  | nil => simp [setManifest, List.lookup]
  | cons kv rest ih =>
    obtain ⟨k', v'⟩ := kv
    by_cases h : k' = k
    · simp [setManifest, h, List.lookup]
    · have h2 : (k == k') = false := beq_eq_false_iff_ne.mpr (fun hh => h hh.symm)
      simp [setManifest, h, List.lookup, h2, ih]

theorem cmdAddTail_manifests (env : Env) (pkg : Package) (ctx : Context)
    (ip lip : String) (w : World) :
    (cmdAddTail env pkg ctx ip lip w).2.manifests = w.manifests := by
  unfold cmdAddTail
  cases env.copyErr with
  | some e => rfl
  | none =>
    cases env.load2 with
    | error e => rfl
    | ok ctx2 =>
      cases env.rewriteErr with
      | some e => rfl
      | none => rfl

theorem cmdAdd_external_run (env : Env) (p : String) (w : World) (c0 ctx : Context)
    (pkg : Package)
    (h0 : env.newContextWD = .ok c0) (h1 : env.load1 = .ok ctx)
    (h2 : ctx.Package.lookup (slashToImportPath p) = some pkg)
    (h3 : pkg.Status = StatusExternal) (h4 : env.writeErr = none) :
    cmdAdd env p w =
      cmdAddTail env pkg ctx (slashToImportPath p)
        (localImportPathOf ctx.RootImportPath (slashToImportPath p))
        (writeVendorFileAct ctx.RootDir
          { ctx.VendorFile with Package := ctx.VendorFile.Package ++
            [{ Vendor := slashToImportPath p,
               Local := localImportPathOf ctx.RootImportPath (slashToImportPath p) }] } w) := by
  simp only [cmdAdd, h0, h1, h2, h4]
  rw [if_pos h3]

theorem localImportPathOf_foo (root : String) :
    localImportPathOf root "example.com/foo" =
      pathJoin [root, internalFolder, "example.com/foo"] := by
  have h : (stringsSplit "example.com/foo" internalFolderSlash).getLastD "" =
      "example.com/foo" := by decide
  unfold localImportPathOf
  rw [h]

theorem cmdAddTail_no_nilDeref (env : Env) (pkg : Package) (ctx : Context)
    (ip lip : String) (w : World) :
    (cmdAddTail env pkg ctx ip lip w).1 ≠ .error .nilDeref := by
  unfold cmdAddTail
  cases env.copyErr with
  | some e => simp
  | none =>
    cases env.load2 with
    | error e => simp
    | ok ctx2 =>
      cases env.rewriteErr with
      | some e => simp
      | none => simp

/-! ### Claim theorems -/

/-- C7: for every import path argument, `CmdUpdate` and `CmdRemove` return
no error and perform no observable action. -/
theorem cmdUpdate_cmdRemove_noop (p : String) (w : World) :
    cmdUpdate p w = (.ok (), w) ∧ cmdRemove p w = (.ok (), w) :=
  ⟨rfl, rfl⟩

set_option maxRecDepth 8192 in
/-- C8: `ListStatus.string` maps the seven defined constants to
`?`, `m`, `s`, `l`, `e`, `i`, `u` respectively and every other byte value to
the empty string, so `ListItem.string` is total for out-of-range statuses. -/
theorem listStatus_string_total :
    (ListStatus.string StatusUnknown = "?" ∧ ListStatus.string StatusMissing = "m" ∧
     ListStatus.string StatusStd = "s" ∧ ListStatus.string StatusLocal = "l" ∧
     ListStatus.string StatusExternal = "e" ∧ ListStatus.string StatusInternal = "i" ∧
     ListStatus.string StatusUnused = "u") ∧
    (∀ b : ListStatus, StatusUnused < b → ListStatus.string b = "") ∧
    (∀ li : ListItem, ListItem.string li = ListStatus.string li.Status ++ " " ++ li.Path) := by
  refine ⟨by decide, by decide, fun li => rfl⟩

/-- Witness for C8: a byte value outside the seven constants maps to `""`. -/
theorem listStatus_string_total_witness : ListStatus.string 200 = "" :=
  listStatus_string_total.2.1 200 (by decide)

/-- C3: when the loaded status of the import path is not `External`,
`CmdAdd` fails with exactly the status-specific error (`Internal` maps to
`ErrVendorExists`, `Local` to `ErrLocalPackage`, anything else to
`ErrNotInGOPATH` naming the path) and returns with the manifest and tree
unchanged. -/
theorem cmdAdd_status_specific_errors (env : Env) (p : String) (w : World)
    (c0 ctx : Context) (pkg : Package)
    (h0 : env.newContextWD = .ok c0) (h1 : env.load1 = .ok ctx)
    (h2 : ctx.Package.lookup (slashToImportPath p) = some pkg) :
    (pkg.Status = StatusInternal → cmdAdd env p w = (.error .vendorExists, w)) ∧
    (pkg.Status = StatusLocal → cmdAdd env p w = (.error .localPackage, w)) ∧
    (pkg.Status ≠ StatusExternal → pkg.Status ≠ StatusInternal → pkg.Status ≠ StatusLocal →
      cmdAdd env p w = (.error (.notInGOPATH (slashToImportPath p)), w)) := by
  refine ⟨?_, ?_, ?_⟩
  · intro hs
    have hne : ¬ pkg.Status = StatusExternal := by rw [hs]; decide
    simp only [cmdAdd, h0, h1, h2]
    rw [if_neg hne, if_pos hs]
  · intro hs
    have hne : ¬ pkg.Status = StatusExternal := by rw [hs]; decide
    have hni : ¬ pkg.Status = StatusInternal := by rw [hs]; decide
    simp only [cmdAdd, h0, h1, h2]
    rw [if_neg hne, if_neg hni, if_pos hs]
  · intro he hi hl
    simp only [cmdAdd, h0, h1, h2]
    rw [if_neg he, if_neg hi, if_neg hl]

/-- Witness for C3: adding an already-vendored (`Internal`) package fails
with `ErrVendorExists` and leaves the world unchanged. -/
theorem cmdAdd_status_specific_errors_witness :
    cmdAdd envInternal "example.com/foo" w0 = (.error .vendorExists, w0) :=
  (cmdAdd_status_specific_errors envInternal "example.com/foo" w0 ctxInternal ctxInternal
    { pkgFoo with Status := StatusInternal } rfl rfl (by decide)).1 rfl

/-- C5: `CmdInit` fails with the manifest-already-exists error if and only
if `internal/vendor.json` is already present under the working directory;
otherwise it creates the `internal` directory and writes an empty manifest
recording the tool's identity. -/
theorem cmdInit_manifest_exists_iff (env : InitEnv) (w : World) (wd : String)
    (h : env.wd = .ok wd) :
    (((cmdInit env w).1 = .error .vendorFileExists) ↔
      (w.manifests.lookup (filepathJoin [wd, internalVendor])).isSome = true) ∧
    ((w.manifests.lookup (filepathJoin [wd, internalVendor])).isSome = false →
      env.mkdirErr = none → env.writeErr = none →
      (cmdInit env w).1 = .ok () ∧
      (cmdInit env w).2.dirs = w.dirs ++ [filepathJoin [wd, internalFolder]] ∧
      (cmdInit env w).2.manifests.lookup (filepathJoin [wd, internalVendor]) =
        some { Tool := toolName, Package := [] }) := by
  cases hm : (w.manifests.lookup (filepathJoin [wd, internalVendor])).isSome with
  | true =>
    refine ⟨?_, ?_⟩
    · simp [cmdInit, h, hm]
    · intro hfalse
      exact Bool.noConfusion hfalse
  | false =>
    refine ⟨?_, ?_⟩
    · constructor
      · intro hres
        exfalso
        cases hmk : env.mkdirErr with
        | some e =>
          simp [cmdInit, h, hm, hmk] at hres
        | none =>
          cases hwr : env.writeErr with
          | some e => simp [cmdInit, h, hm, hmk, hwr] at hres
          | none => simp [cmdInit, h, hm, hmk, hwr] at hres
      · intro htrue
        exact Bool.noConfusion htrue
    · intro _ hmk hwr
      simp only [cmdInit, h, hm, hmk, hwr]
      refine ⟨rfl, rfl, ?_⟩
      exact setManifest_lookup _ _ _

/-- Witness for C5: on an empty world, `CmdInit` succeeds, creates the
`internal` directory and writes the empty manifest. -/
theorem cmdInit_manifest_exists_iff_witness :
    (cmdInit initEnvOk w0).1 = .ok () ∧
    (cmdInit initEnvOk w0).2.dirs = w0.dirs ++ [filepathJoin ["/w", internalFolder]] ∧
    (cmdInit initEnvOk w0).2.manifests.lookup (filepathJoin ["/w", internalVendor]) =
      some { Tool := toolName, Package := [] } :=
  (cmdInit_manifest_exists_iff initEnvOk w0 "/w" rfl).2 (by decide) rfl rfl

/-- C10: the unguarded dereference of the package-map entry in `CmdAdd`
never yields the nil-dereference outcome when every successful load installs
an entry for the focus path; without that precondition the dereference is
reached, as the concrete run with an entry-less load shows. -/
theorem cmdAdd_nilDeref_safety :
    (∀ (env : Env) (p : String) (w : World),
      (∀ ctx : Context, env.load1 = .ok ctx →
        (ctx.Package.lookup (slashToImportPath p)).isSome = true) →
      (cmdAdd env p w).1 ≠ .error .nilDeref) ∧
    (cmdAdd envNoEntry "example.com/foo" w0).1 = .error .nilDeref := by
  constructor
  · intro env p w hpre
    cases hc : env.newContextWD with
    | error e => simp [cmdAdd, hc]
    | ok c0 =>
      cases hl : env.load1 with
      | error e => simp [cmdAdd, hc, hl]
      | ok ctx =>
        have hsome := hpre ctx hl
        rcases Option.isSome_iff_exists.mp hsome with ⟨pkg, hpkg⟩
        simp only [cmdAdd, hc, hl, hpkg]
        by_cases he : pkg.Status = StatusExternal
        · rw [if_pos he]
          cases hw : env.writeErr with
          | some e => simp
          | none => exact cmdAddTail_no_nilDeref env pkg ctx _ _ _
        · rw [if_neg he]
          by_cases hi : pkg.Status = StatusInternal
          · rw [if_pos hi]
            simp
          · rw [if_neg hi]
            by_cases hlc : pkg.Status = StatusLocal
            · rw [if_pos hlc]
              simp
            · rw [if_neg hlc]
              simp
  · decide

/-- Witness for C10: under oracles whose load installs the focus entry, no
nil dereference occurs. -/
theorem cmdAdd_nilDeref_safety_witness :
    (cmdAdd envAddOk "example.com/foo" w0).1 ≠ .error .nilDeref :=
  cmdAdd_nilDeref_safety.1 envAddOk "example.com/foo" w0 (fun ctx hl => by
    have h2 : envAddOk.load1 = Except.ok ctxExt := rfl
    rw [h2] at hl
    rw [← Except.ok.inj hl]
    decide)

/-- Counterexample for C1: with project import path `proj`, adding the
`External` import `example.com/foo` appends an entry whose `LocalPath` is
`proj/internal/example.com/foo`, which differs from the claimed
`proj/internal/foo` (the last component re-rooted). -/
theorem cmdAdd_c1_counterexample :
    (cmdAdd envAddOk "example.com/foo" w0).2.manifests.lookup
        "/go/src/proj/internal/vendor.json" =
      some { Tool := toolName,
             Package := [{ Vendor := "example.com/foo",
                           Local := "proj/internal/example.com/foo" }] } ∧
    pathJoin ["proj", internalFolder, "foo"] = "proj/internal/foo" ∧
    ("proj/internal/example.com/foo" : String) ≠ "proj/internal/foo" := by
  refine ⟨by decide, by decide, by decide⟩

/-- Counterexample for C2: for the import path `example.com/foo`, which has
no `/internal/` segment, the computed local import path keeps the whole
path, not just the final component `foo`. -/
theorem localImportPathOf_c2_counterexample :
    localImportPathOf "proj" "example.com/foo" = "proj/internal/example.com/foo" ∧
    pathJoin ["proj", internalFolder, "foo"] = "proj/internal/foo" ∧
    ("proj/internal/example.com/foo" : String) ≠ "proj/internal/foo" := by
  refine ⟨by decide, by decide, by decide⟩

/-- C1 (amended): for every project whose import of `example.com/foo`
resolves with status `External`, `CmdAdd("example.com/foo")` appends exactly
one manifest entry, whose `LocalPath` is
`path.Join(projectImportPath, "internal", "example.com/foo")` — the
whole path re-rooted under the project's internal directory, since the
path has no `/internal/` segment. -/
theorem cmdAdd_c1_amended (env : Env) (w : World) (c0 ctx : Context) (pkg : Package)
    (h0 : env.newContextWD = .ok c0) (h1 : env.load1 = .ok ctx)
    (h2 : ctx.Package.lookup "example.com/foo" = some pkg)
    (h3 : pkg.Status = StatusExternal) (h4 : env.writeErr = none) :
    (cmdAdd env "example.com/foo" w).2.manifests.lookup
        (filepathJoin [ctx.RootDir, internalVendor]) =
      some { ctx.VendorFile with Package := ctx.VendorFile.Package ++
        [{ Vendor := "example.com/foo",
           Local := pathJoin [ctx.RootImportPath, internalFolder, "example.com/foo"] }] } := by
  have h2' : ctx.Package.lookup (slashToImportPath "example.com/foo") = some pkg := h2
  have hrun := cmdAdd_external_run env "example.com/foo" w c0 ctx pkg h0 h1 h2' h3 h4
  rw [hrun, cmdAddTail_manifests]
  simp only [writeVendorFileAct, slashToImportPath]
  rw [setManifest_lookup, localImportPathOf_foo]

/-- Witness for C1 (amended): the concrete successful run over `ctxExt`. -/
theorem cmdAdd_c1_amended_witness :
    (cmdAdd envAddOk "example.com/foo" w0).2.manifests.lookup
        (filepathJoin [ctxExt.RootDir, internalVendor]) =
      some { ctxExt.VendorFile with Package := ctxExt.VendorFile.Package ++
        [{ Vendor := "example.com/foo",
           Local := pathJoin [ctxExt.RootImportPath, internalFolder, "example.com/foo"] }] } :=
  cmdAdd_c1_amended envAddOk w0 ctxExt ctxExt pkgFoo rfl rfl (by decide) rfl rfl

/-- C6: in every execution of `CmdAdd` that reaches the package-copy step
(status `External` and the manifest write succeeded), the manifest entry
has already been appended and persisted, and a failure of the copy, the
reload or the rewrite step returns that error with the persisted entry left
in place (no rollback). -/
theorem cmdAdd_manifest_before_copy (env : Env) (p : String) (w : World)
    (c0 ctx : Context) (pkg : Package)
    (h0 : env.newContextWD = .ok c0) (h1 : env.load1 = .ok ctx)
    (h2 : ctx.Package.lookup (slashToImportPath p) = some pkg)
    (h3 : pkg.Status = StatusExternal) (h4 : env.writeErr = none) :
    ((cmdAdd env p w).2.manifests.lookup (filepathJoin [ctx.RootDir, internalVendor]) =
      some { ctx.VendorFile with Package := ctx.VendorFile.Package ++
        [{ Vendor := slashToImportPath p,
           Local := localImportPathOf ctx.RootImportPath (slashToImportPath p) }] }) ∧
    (∀ e, env.copyErr = some e → (cmdAdd env p w).1 = .error (.ioErr e)) ∧
    (∀ e, env.copyErr = none → env.load2 = .error e → (cmdAdd env p w).1 = .error (.ioErr e)) ∧
    (∀ e ctx2, env.copyErr = none → env.load2 = .ok ctx2 → env.rewriteErr = some e →
      (cmdAdd env p w).1 = .error (.ioErr e)) := by
  have hrun := cmdAdd_external_run env p w c0 ctx pkg h0 h1 h2 h3 h4
  refine ⟨?_, ?_, ?_, ?_⟩
  · rw [hrun, cmdAddTail_manifests]
    simp only [writeVendorFileAct]
    exact setManifest_lookup _ _ _
  · intro e hce
    rw [hrun]
    simp [cmdAddTail, hce]
  · intro e hce hl2
    rw [hrun]
    simp [cmdAddTail, hce, hl2]
  · intro e ctx2 hce hl2 hre
    rw [hrun]
    simp [cmdAddTail, hce, hl2, hre]

/-- Witness for C6: with a failing copy, the copy error is returned while
the appended manifest entry stays persisted. -/
theorem cmdAdd_manifest_before_copy_witness :
    ((cmdAdd envCopyFail "example.com/foo" w0).2.manifests.lookup
        (filepathJoin [ctxExt.RootDir, internalVendor]) =
      some { ctxExt.VendorFile with Package := ctxExt.VendorFile.Package ++
        [{ Vendor := slashToImportPath "example.com/foo",
           Local := localImportPathOf ctxExt.RootImportPath
             (slashToImportPath "example.com/foo") }] }) ∧
    (cmdAdd envCopyFail "example.com/foo" w0).1 = .error (.ioErr "copy failed") := by
  have h := cmdAdd_manifest_before_copy envCopyFail "example.com/foo" w0 ctxExt ctxExt
    pkgFoo rfl rfl (by decide) rfl rfl
  exact ⟨h.1, h.2.1 "copy failed" rfl⟩

/-- C4: every list returned by `CmdList` is sorted so that each adjacent
pair has strictly descending status or equal status and ascending path, and
it contains exactly one item per loaded package, carrying that package's
status and import path. -/
theorem cmdList_sorted_complete (env : Env) (c0 ctx : Context)
    (h0 : env.newContextWD = .ok c0) (h1 : env.load1 = .ok ctx) :
    ∃ li, cmdList env = .ok li ∧
      li.Chain' (fun a b => b.Status < a.Status ∨
        (a.Status = b.Status ∧ strCmpLt b.Path.data a.Path.data = false)) ∧
      li.Perm (ctx.Package.map fun kv => ⟨kv.2.Status, kv.2.ImportPath⟩) := by
  refine ⟨sortItems (ctx.Package.map fun kv => ⟨kv.2.Status, kv.2.ImportPath⟩), ?_, ?_, ?_⟩
  · simp only [cmdList, h0, h1]
  · have hp := sortItems_sorted (ctx.Package.map fun kv => ⟨kv.2.Status, kv.2.ImportPath⟩)
    have hp2 := hp.imp (fun hab => (listItemLE_iff _ _).mp hab)
    exact hp2.chain'
  · exact sortItems_perm _

/-- Witness for C4: the concrete two-package context produces a sorted,
complete listing. -/
theorem cmdList_sorted_complete_witness :
    ∃ li, cmdList envList = .ok li ∧
      li.Chain' (fun a b => b.Status < a.Status ∨
        (a.Status = b.Status ∧ strCmpLt b.Path.data a.Path.data = false)) ∧
      li.Perm (ctxList.Package.map fun kv => ⟨kv.2.Status, kv.2.ImportPath⟩) :=
  cmdList_sorted_complete envList ctxList ctxList rfl rfl

/-- C9: `ListItemSort.Less` is asymmetric, total on items with distinct
(status, path) pairs, and consequently the sorted result is uniquely
determined by the multiset of items, independent of input order. -/
theorem listItemSort_less_strict_total :
    (∀ (li : ListItemSort) (i j : Nat), i < li.length → j < li.length →
      ¬(ListItemSort.Less li i j = true ∧ ListItemSort.Less li j i = true)) ∧
    (∀ (li : ListItemSort) (i j : Nat), i < li.length → j < li.length →
      li.getD i default ≠ li.getD j default →
      ListItemSort.Less li i j = true ∨ ListItemSort.Less li j i = true) ∧
    (∀ l1 l2 : List ListItem, l1.Perm l2 → sortItems l1 = sortItems l2) := by
  refine ⟨?_, ?_, ?_⟩
  · intro li i j _ _ h
    obtain ⟨hij, hji⟩ := h
    simp only [ListItemSort.Less] at hij hji
    rw [listItemLess_asymm hij] at hji
    cases hji
  · intro li i j _ _ hne
    simp only [ListItemSort.Less]
    exact listItemLess_connex hne
  · intro l1 l2 hperm
    haveI : IsAntisymm ListItem (fun a b => listItemLE a b = true) :=
      ⟨fun a b hab hba => listItemLE_antisymm hab hba⟩
    exact List.eq_of_perm_of_sorted
      ((sortItems_perm l1).trans (hperm.trans (sortItems_perm l2).symm))
      (sortItems_sorted l1) (sortItems_sorted l2)

/-- Witness for C9: totality at two concrete items with distinct pairs. -/
theorem listItemSort_less_strict_total_witness :
    ListItemSort.Less [⟨StatusStd, "a"⟩, ⟨StatusExternal, "b"⟩] 0 1 = true ∨
    ListItemSort.Less [⟨StatusStd, "a"⟩, ⟨StatusExternal, "b"⟩] 1 0 = true :=
  listItemSort_less_strict_total.2.1 [⟨StatusStd, "a"⟩, ⟨StatusExternal, "b"⟩] 0 1
    (by decide) (by decide) (by decide)

/-- C2 (amended): for every import path, the computed local import path is
the project's import path joined with `internal` and a suffix of the
original path: the whole path when it has no `/internal/` segment, and
otherwise a suffix that follows a `/internal/` occurrence and itself
contains no further `/internal/` occurrence (the last field of the
left-to-right non-overlapping split on `/internal/`). -/
theorem localImportPathOf_spec (root p : String) :
    (¬ containsSeg internalFolderSlash p →
      localImportPathOf root p = pathJoin [root, internalFolder, p]) ∧
    (containsSeg internalFolderSlash p →
      ∃ suf : String, (∃ a : String, p = a ++ internalFolderSlash ++ suf) ∧
        ¬ containsSeg internalFolderSlash suf ∧
        localImportPathOf root p = pathJoin [root, internalFolder, suf]) := by
  have hsep : internalFolderSlash.data ≠ [] := by decide
  obtain ⟨pre, lst, h1, h2, h3⟩ :=
    splitGo_decomp hsep p.data.length p.data (le_refl _)
  have hsplit : stringsSplit p internalFolderSlash = (pre ++ [lst]).map String.mk := by
    unfold stringsSplit
    rw [h1]
  have hlast : (stringsSplit p internalFolderSlash).getLastD "" = String.mk lst := by
    rw [hsplit, List.map_append]
    exact List.getLastD_concat _ _ _
  have hlocal : localImportPathOf root p = pathJoin [root, internalFolder, String.mk lst] := by
    unfold localImportPathOf
    rw [hlast]
  constructor
  · intro hnc
    rcases h3 with ⟨-, hl⟩ | ⟨a, ha⟩
    · rw [hlocal, hl, strMk_data]
    · exact absurd (containsSeg_iff.mpr ⟨a, lst, ha⟩) hnc
  · intro hc
    rcases h3 with ⟨-, hl⟩ | ⟨a, ha⟩
    · exfalso
      rcases containsSeg_iff.mp hc with ⟨x, y, hxy⟩
      exact findCut_none (hl ▸ h2) ⟨x, y, hxy⟩
    · refine ⟨String.mk lst, ⟨String.mk a, ?_⟩, ?_, hlocal⟩
      · apply strData_ext
        simp only [String.data_append]
        exact ha
      · intro hcs
        rcases containsSeg_iff.mp hcs with ⟨x, y, hxy⟩
        exact findCut_none h2 ⟨x, y, hxy⟩

/-- Witness for C2 (amended): concrete inputs without and with a
`/internal/` segment. -/
theorem localImportPathOf_spec_witness :
    localImportPathOf "r" "abc" = pathJoin ["r", internalFolder, "abc"] ∧
    (∃ suf : String, (∃ a : String, "x/internal/y" = a ++ internalFolderSlash ++ suf) ∧
      ¬ containsSeg internalFolderSlash suf ∧
      localImportPathOf "r" "x/internal/y" = pathJoin ["r", internalFolder, suf]) := by
  constructor
  · exact (localImportPathOf_spec "r" "abc").1 (fun hc => by
      rcases containsSeg_iff.mp hc with ⟨x, y, hxy⟩
      exact findCut_none (show findCut internalFolderSlash.data ("abc" : String).data = none
        by decide) ⟨x, y, hxy⟩)
  · exact (localImportPathOf_spec "r" "x/internal/y").2
      (containsSeg_iff.mpr ⟨"x".data, "y".data, by decide⟩)
